import Mathlib

/-!
Shallow embedding of the Huffman audio codec (src/encoder.cpp and
src/decoder.cpp) and verification of its specification claims.

Conventions of the embedding:
* `int16_t` sample values become `Int` (no arithmetic is performed on
  samples, only ordering and equality, so no wrap-around is involved).
* `std::string` of the characters '0'/'1' becomes `List Bool`
  ('0' ↦ `false`, '1' ↦ `true`).
* `std::map` becomes an association list sorted by key, with
  insert-or-replace, mirroring the iteration order of `std::map`.
* `std::priority_queue` with the `Compare` functor of encoder.cpp
  (`l->frequency > r->frequency`, a min-heap on frequency) becomes a
  list kept sorted by weight; a newly pushed node goes after all nodes
  of smaller or equal weight (a fixed deterministic tie-break, as the
  library's behaviour is deterministic for a fixed insertion order).
* Operations that are undefined behaviour or throw in the C++
  (`minHeap.top()` on an empty queue, `std::map::at` on a missing key,
  dereferencing a null `HuffmanNode*`) return `none` in the model.
-/

/-! ## Encoder data model (src/encoder.cpp) -/

/-- Huffman tree node of encoder.cpp: `sample`, `frequency`, and the two
child pointers; `nil` stands for a null `HuffmanNode*`. -/
inductive ENode where
  | nil : ENode
  | node (sample : Int) (frequency : Nat) (left right : ENode) : ENode
deriving DecidableEq

/-- Weight used by the priority queue comparator (`l->frequency`). -/
def eweight : ENode → Nat
  | .nil => 0
  | .node _ f _ _ => f

/-- `calculateFrequencies` inner step: `frequencies[sample]++` on a
`std::map<int16_t,int>` kept sorted by key. -/
def bumpFreq : List (Int × Nat) → Int → List (Int × Nat)
  | [], s => [(s, 1)]
  | (k, v) :: rest, s =>
    if s = k then (k, v + 1) :: rest
    else if s < k then (s, 1) :: (k, v) :: rest
    else (k, v) :: bumpFreq rest s

/-- `calculateFrequencies` of encoder.cpp lines 46-52. -/
def calculateFrequencies (audioData : List Int) : List (Int × Nat) :=
  audioData.foldl bumpFreq []

/-- Push into the min-priority queue modelled as a weight-sorted list:
the new node is placed after every node of smaller or equal weight. -/
def pqInsert (n : ENode) : List ENode → List ENode
  | [] => [n]
  | m :: ms => if eweight m ≤ eweight n then m :: pqInsert n ms else n :: m :: ms

/-- The `while (minHeap.size() > 1)` merge loop of `buildHuffmanTree`
(encoder.cpp lines 76-89).  The two minimum-weight nodes are popped and
combined into an internal node with `sample = -1`.  `minHeap.top()` on
an empty queue is undefined behaviour in C++, modelled as `none`.  The
fuel argument is an upper bound on the number of merges; each merge
shrinks the queue by one, so `queue.length` fuel always suffices. -/
def buildLoop : Nat → List ENode → Option ENode
  | _, [] => none
  | _, [t] => some t
  | 0, _ :: _ :: _ => none
  | fuel + 1, a :: b :: rest =>
    buildLoop fuel (pqInsert (.node (-1) (eweight a + eweight b) a b) rest)

/-- `buildHuffmanTree` of encoder.cpp lines 69-90: seed one leaf per
distinct sample (in `std::map` key order), then merge down to one node. -/
def buildEncTree (freqs : List (Int × Nat)) : Option ENode :=
  let q := freqs.foldl (fun q p => pqInsert (.node p.1 p.2 .nil .nil) q) []
  buildLoop q.length q

/-- Insert-or-replace into a `std::map<int16_t, std::string>` modelled
as a key-sorted association list. -/
def insertCT : List (Int × List Bool) → Int → List Bool → List (Int × List Bool)
  | [], k, v => [(k, v)]
  | (k0, v0) :: rest, k, v =>
    if k = k0 then (k, v) :: rest
    else if k < k0 then (k, v) :: (k0, v0) :: rest
    else (k0, v0) :: insertCT rest k v

/-- Lookup in the association-list map; `none` models the exception of
`std::map::at` on a missing key. -/
def lookupCT : List (Int × List Bool) → Int → Option (List Bool)
  | [], _ => none
  | (k0, v0) :: rest, k => if k = k0 then some v0 else lookupCT rest k

/-- `generateCodes` of encoder.cpp lines 92-101: pre-order walk that
records the accumulated bit string at every node whose `sample` field
differs from `-1`, appending `false` ('0') for a left move and `true`
('1') for a right move. -/
def generateCodes : ENode → List Bool → List (Int × List Bool) → List (Int × List Bool)
  | .nil, _, m => m
  | .node s _ l r, str, m =>
    let m1 := if s ≠ -1 then insertCT m s str else m
    let m2 := generateCodes l (str ++ [false]) m1
    generateCodes r (str ++ [true]) m2

/-- `encodeAudioData` of encoder.cpp lines 103-109: concatenate, in
sample order, each sample's code looked up in the table; a missing
entry throws (`std::map::at`), modelled as `none`. -/
def encodeAudioData : List Int → List (Int × List Bool) → Option (List Bool)
  | [], _ => some []
  | s :: rest, ct =>
    match lookupCT ct s with
    | none => none
    | some c => (encodeAudioData rest ct).map (fun bs => c ++ bs)

/-- Value of the `std::bitset<8>` whose bit `j` is the `j`-th element of
the list (bit 0 is the earliest bit of the byte's span). -/
def toByte : List Bool → Nat
  | [] => 0
  | b :: bs => (if b then 1 else 0) + 2 * toByte bs

/-- The bit-packing loop of `saveEncodedFile` (encoder.cpp lines
136-144): bits accumulate into the current byte (`acc`, at most 7 bits)
and the byte is flushed after the eighth bit or at the last bit. -/
def packLoop : List Bool → List Bool → List Nat
  | acc, [] => if acc = [] then [] else [toByte acc]
  | acc, b :: bs =>
    if acc.length = 7 then toByte (acc ++ [b]) :: packLoop [] bs
    else packLoop (acc ++ [b]) bs

/-- Packed byte stream produced for a logical bit string. -/
def packBits (bits : List Bool) : List Nat :=
  packLoop [] bits

/-- The full encoder pipeline of `main` (encoder.cpp lines 147-171),
from samples to the data that crosses the wire: the code table, the
recorded total bit count (`encodedDataSize`) and the packed bytes. -/
def encodePipeline (samples : List Int) :
    Option (List (Int × List Bool) × Nat × List Nat) :=
  match buildEncTree (calculateFrequencies samples) with
  | none => none
  | some t =>
    let ct := generateCodes t [] []
    match encodeAudioData samples ct with
    | none => none
    | some bits => some (ct, bits.length, packBits bits)

/-! ## Decoder data model (src/decoder.cpp) -/

/-- Huffman tree node of decoder.cpp: `sample` plus the two child
pointers; `nil` stands for a null `HuffmanNode*`; fresh internal nodes
carry `sample = -1` (the default constructor). -/
inductive DNode where
  | nil : DNode
  | node (sample : Int) (left right : DNode) : DNode
deriving DecidableEq

/-- One insertion of the loop body of the decoder's `buildHuffmanTree`
(decoder.cpp lines 58-74): walk the code from the current node, creating
`HuffmanNode()` children (sample `-1`) on demand, and store the sample
at the final node. -/
def insertD : DNode → List Bool → Int → DNode
  | .nil, [], v => .node v .nil .nil
  | .node _ l r, [], v => .node v l r
  | .nil, b :: bs, v =>
    if b then .node (-1) .nil (insertD .nil bs v)
    else .node (-1) (insertD .nil bs v) .nil
  | .node s l r, b :: bs, v =>
    if b then .node s l (insertD r bs v)
    else .node s (insertD l bs v) r

/-- `buildHuffmanTree` of decoder.cpp lines 55-77: start from a fresh
root and insert every (sample, code) pair in map order. -/
def buildDecTree (ct : List (Int × List Bool)) : DNode :=
  ct.foldl (fun t e => insertD t e.2 e.1) (.node (-1) .nil .nil)

/-- `decodeAudioData` of decoder.cpp lines 79-97: per bit, step to the
left ('0'/`false`) or right ('1'/`true`) child; stepping into a null
child and then dereferencing it is undefined behaviour, modelled as
`none`; when the reached node has two null children its sample is
emitted and the walk resets to the root. -/
def decodeGo (root : DNode) : List Bool → DNode → Option (List Int)
  | [], _ => some []
  | _ :: _, .nil => none
  | b :: bs, .node _ l r =>
    match (if b then r else l) with
    | .nil => none
    | .node cs cl cr =>
      if cl = .nil ∧ cr = .nil then (decodeGo root bs root).map (fun out => cs :: out)
      else decodeGo root bs (.node cs cl cr)

/-- `decodeAudioData`, started (as in the C++) at the root. -/
def decodeAudioData (bits : List Bool) (root : DNode) : Option (List Int) :=
  decodeGo root bits root

/-- Instrumented variant of the decode walk that additionally returns
the node at which the walk stands after the last bit (the walk state
the specification's boundary condition speaks about). -/
def decodeWalk (root : DNode) : List Bool → DNode → Option (List Int × DNode)
  | [], cur => some ([], cur)
  | _ :: _, .nil => none
  | b :: bs, .node _ l r =>
    match (if b then r else l) with
    | .nil => none
    | .node cs cl cr =>
      if cl = .nil ∧ cr = .nil then
        (decodeWalk root bs root).map (fun pr => (cs :: pr.1, pr.2))
      else decodeWalk root bs (.node cs cl cr)

/-- Bits of one byte in stream order, `byte = std::bitset<8>(c)` read at
indices 0..7 (`readEncodedData`, decoder.cpp lines 104-111). -/
def byteToBits (c : Nat) : List Bool :=
  (List.range 8).map c.testBit

/-- `readEncodedData` of decoder.cpp lines 99-115: take the first
`n` logical bits of the byte stream, bit `j` of each byte being logical
bit `byteIndex*8 + j`. -/
def unpackBits (bytes : List Nat) (n : Nat) : List Bool :=
  ((bytes.map byteToBits).flatten).take n

/-- The decoding pipeline of `main` (decoder.cpp lines 131-172) from
the wire data: rebuild the tree from the code table and walk it over
the first `n` unpacked bits. -/
def decodePipeline (ct : List (Int × List Bool)) (n : Nat) (bytes : List Nat) :
    Option (List Int) :=
  decodeAudioData (unpackBits bytes n) (buildDecTree ct)

/-- Encode followed by decode over the wire data. -/
def roundTrip (samples : List Int) : Option (List Int) :=
  (encodePipeline samples).bind fun w => decodePipeline w.1 w.2.1 w.2.2

/-! ## Specification-side notions -/

/-- `leads p q`: the bit string `p` is an initial segment of `q`. -/
def leads : List Bool → List Bool → Bool
  | [], _ => true
  | _ :: _, [] => false
  | a :: as, b :: bs => (a == b) && leads as bs

/-- Two codes are incomparable: neither is an initial segment
of the other. -/
def Incomp (c d : List Bool) : Prop :=
  leads c d = false ∧ leads d c = false

instance (c d : List Bool) : Decidable (Incomp c d) := by
  unfold Incomp; infer_instance

/-- A code table forms a prefix code: the codes of any two distinct
entries are incomparable (in particular no code is an initial segment
of another entry's code). -/
def PrefFree (ct : List (Int × List Bool)) : Prop :=
  List.Pairwise (fun e f => Incomp e.2 f.2) ct

instance (ct : List (Int × List Bool)) : Decidable (PrefFree ct) := by
  unfold PrefFree; infer_instance

/-- Walk a path of bits down a decoder tree; walking into (or from) a
null pointer stays at null. -/
def followN : DNode → List Bool → DNode
  | t, [] => t
  | .nil, _ :: _ => .nil
  | .node _ l r, b :: bs => followN (if b then r else l) bs

/-- Invariant of the decoder's tree building: after inserting the
entries of `done`, the walk along each inserted code ends at a childless
node carrying that entry's sample, and every non-root reachable path is
an initial segment of some inserted code. -/
def GoodTable (done : List (Int × List Bool)) (t : DNode) : Prop :=
  (∀ e ∈ done, followN t e.2 = .node e.1 .nil .nil) ∧
  (∀ p : List Bool, p ≠ [] → followN t p ≠ .nil → ∃ e ∈ done, leads p e.2 = true)

/-- Total encoded bit length of a frequency table under a code table:
the sum over the table's samples of frequency times code length;
`none` when some sample has no code. -/
def totalBits : List (Int × Nat) → List (Int × List Bool) → Option Nat
  | [], _ => some 0
  | (s, f) :: rest, ct =>
    match lookupCT ct s with
    | none => none
    | some c => (totalBits rest ct).map (fun t => f * c.length + t)

/-! ## Lemmas: the `-1` sentinel never enters the code table -/

/-- Inserting a key distinct from `k'` does not change the lookup
of `k'`. -/
theorem lookupCT_insertCT_ne (m : List (Int × List Bool)) (k k' : Int)
    (v : List Bool) (h : k' ≠ k) : lookupCT (insertCT m k v) k' = lookupCT m k' := by
  induction m with
  | nil => simp [insertCT, lookupCT, h]
  | cons e rest ih =>
    obtain ⟨k0, v0⟩ := e
    by_cases h1 : k = k0
    · subst h1
      simp [insertCT, lookupCT, h]
    · by_cases h2 : k < k0
      · simp [insertCT, h1, h2, lookupCT, h]
      · by_cases h3 : k' = k0 <;> simp [insertCT, h1, h2, lookupCT, h3, ih]

/-- `generateCodes` never creates an entry for the sample value `-1`:
every node whose `sample` field is `-1` is skipped, including a genuine
leaf for sample `-1`. -/
theorem lookupCT_generateCodes_neg_one (t : ENode) :
    ∀ pre m, lookupCT (generateCodes t pre m) (-1) = lookupCT m (-1) := by
  induction t with
  | nil => intro pre m; rfl
  | node s f l r ihl ihr =>
    intro pre m
    show lookupCT (generateCodes r _ (generateCodes l _ _)) (-1) = _
    rw [ihr, ihl]
    by_cases h : s = -1
    · simp [h]
    · simp only [h, ne_eq, not_false_iff, if_true]
      exact lookupCT_insertCT_ne m s (-1) pre (fun he => h he.symm)

/-- If a sample of the input has no code in the table, `encodeAudioData`
fails (the `std::map::at` lookup throws). -/
theorem encodeAudioData_fails_of_missing (samples : List Int)
    (ct : List (Int × List Bool)) (s : Int) (hs : s ∈ samples)
    (hct : lookupCT ct s = none) : encodeAudioData samples ct = none := by
  induction samples with
  | nil => cases hs
  | cons a rest ih =>
    rcases List.mem_cons.mp hs with h | h
    · subst h
      simp [encodeAudioData, hct]
    · show (match lookupCT ct a with
        | none => none
        | some c => (encodeAudioData rest ct).map (fun bs => c ++ bs)) = none
      cases lookupCT ct a with
      | none => rfl
      | some c => rw [ih h]; rfl

/-- C4: for every input sequence containing the sample value `-1`
together with at least one other distinct value, the code table
produced by `generateCodes` on the encoder's tree has no entry for
`-1` (the leaf for sample `-1` is treated as internal and skipped), so
`encodeAudioData`'s table lookup for the `-1` sample fails. -/
theorem c4_sentinel_sample_unencodable (samples : List Int) (t : ENode)
    (h1 : (-1 : Int) ∈ samples) (h2 : ∃ x ∈ samples, x ≠ -1)
    (ht : buildEncTree (calculateFrequencies samples) = some t) :
    lookupCT (generateCodes t [] []) (-1) = none ∧
      encodeAudioData samples (generateCodes t [] []) = none := by
  have hnone : lookupCT (generateCodes t [] []) (-1) = none := by
    rw [lookupCT_generateCodes_neg_one t [] []]; rfl
  exact ⟨hnone, encodeAudioData_fails_of_missing samples _ (-1) h1 hnone⟩

/-- Witness for C4 at the concrete input `[-1, 3]`. -/
theorem c4_sentinel_sample_unencodable_witness :
    lookupCT (generateCodes (.node (-1) 2 (.node (-1) 1 .nil .nil)
        (.node 3 1 .nil .nil)) [] []) (-1) = none ∧
      encodeAudioData [-1, 3] (generateCodes (.node (-1) 2 (.node (-1) 1 .nil .nil)
        (.node 3 1 .nil .nil)) [] []) = none :=
  c4_sentinel_sample_unencodable [-1, 3]
    (.node (-1) 2 (.node (-1) 1 .nil .nil) (.node 3 1 .nil .nil))
    (by decide) ⟨3, by decide, by decide⟩ (by decide)

/-! ## Concrete evaluations exhibiting the code's defects -/

/-- C1: the round trip fails on the code: for the one-distinct-value
input `[5]` the decoder returns the empty sequence, and for `[-1, 3]`
(a negative extreme-free input containing `-1`) encoding already
fails, so `decode(encode(S)) = S` does not hold for every non-empty `S`. -/
theorem c1_roundtrip_fails : roundTrip [5] = some [] ∧ ([] : List Int) ≠ [5] ∧
    encodePipeline [-1, 3] = none := by
  refine ⟨by decide, by decide, by decide⟩

/-- C2: on the singleton-alphabet input `[5]` the encoder's tree
builder returns the bare leaf with no internal node above it (the
`while (minHeap.size() > 1)` loop never runs), the generated code for
`5` is the empty bit string (length 0, not ≥ 1), and the round trip
returns `[]` instead of `[5]`. -/
theorem c2_singleton_gets_empty_code :
    buildEncTree (calculateFrequencies [5]) = some (.node 5 1 .nil .nil) ∧
      generateCodes (.node 5 1 .nil .nil) [] [] = [((5 : Int), ([] : List Bool))] ∧
      roundTrip [5] = some [] := by
  refine ⟨by decide, by decide, by decide⟩

/-- C3: on the empty input the encoder does not produce an empty code
table and zero bits: `buildHuffmanTree` calls `minHeap.top()` on an
empty priority queue (undefined behaviour, modelled as `none`), so the
whole encoding fails. -/
theorem c3_empty_input_underdefined :
    buildEncTree (calculateFrequencies ([] : List Int)) = none ∧
      encodePipeline ([] : List Int) = none := by
  exact ⟨rfl, rfl⟩

/-- C5: the code table generated from the singleton frequency table
`{5 ↦ 1}` contains the empty bit string as the code of `5`, violating
the non-emptiness part of the claimed invariant. -/
theorem c5_singleton_table_has_empty_code :
    buildEncTree [((5 : Int), 1)] = some (.node 5 1 .nil .nil) ∧
      lookupCT (generateCodes (.node 5 1 .nil .nil) [] []) 5 = some [] := by
  refine ⟨by decide, by decide⟩

/-- C10: for the non-empty frequency table `{-1 ↦ 1, 0 ↦ 1}` the
generated code table has no code for sample `-1`, so the total encoded
bit length (sum over the table's samples of frequency times code
length) is undefined, and encoding the corresponding input `[-1, 0]`
fails; the claimed optimality inequality cannot hold for every
non-empty frequency table. -/
theorem c10_total_bits_undefined_for_neg_one :
    generateCodes (.node (-1) 2 (.node (-1) 1 .nil .nil) (.node 0 1 .nil .nil)) [] []
        = [((0 : Int), [true])] ∧
      buildEncTree [((-1 : Int), 1), ((0 : Int), 1)]
        = some (.node (-1) 2 (.node (-1) 1 .nil .nil) (.node 0 1 .nil .nil)) ∧
      totalBits [((-1 : Int), 1), ((0 : Int), 1)] [((0 : Int), [true])] = none ∧
      encodePipeline [-1, 0] = none := by
  refine ⟨by decide, by decide, by decide, by decide⟩

/-- C9: the encoder is deterministic: the full encoding pipeline is a
function of the sample sequence, so two runs on the same input yield
the identical code table, total bit count and packed bytes. -/
theorem c9_encode_deterministic (s t : List Int) (h : s = t) :
    encodePipeline s = encodePipeline t := by rw [h]

/-- Witness for C9 at the concrete input `[0, 1]`. -/
theorem c9_encode_deterministic_witness :
    encodePipeline [0, 1] = encodePipeline [0, 1] :=
  c9_encode_deterministic [0, 1] [0, 1] rfl

/-! ## C6: the decoder performs no boundary check -/

/-- The decode walk of the source and its instrumented variant agree:
the returned sample list never depends on the node the walk ends at. -/
theorem decodeGo_eq_walk (root : DNode) : ∀ (bits : List Bool) (cur : DNode),
    decodeGo root bits cur = (decodeWalk root bits cur).map Prod.fst := by
  intro bits
  induction bits with
  | nil => intro cur; rfl
  | cons b bs ih =>
    intro cur
    cases cur with
    | nil => rfl
    | node s l r =>
      simp only [decodeGo, decodeWalk]
      cases hbc : (if b then r else l) with
      | nil => rfl
      | node cs cl cr =>
        by_cases hleaf : cl = .nil ∧ cr = .nil
        · simp only [hleaf, if_true]
          rw [ih]
          cases decodeWalk root bs root <;> rfl
        · simp only [hleaf, if_false]
          exact ih _

/-- C6 (amended): when the tree walk consumes all declared bits and
does not end back at the root, the decoder does not detect this:
`decodeAudioData` silently returns the samples of the complete
codewords, dropping the trailing partial codeword. -/
theorem c6_no_boundary_detection (root : DNode) (bits : List Bool)
    (out : List Int) (e : DNode)
    (h : decodeWalk root bits root = some (out, e)) (_hne : e ≠ root) :
    decodeAudioData bits root = some out := by
  unfold decodeAudioData
  rw [decodeGo_eq_walk, h]
  rfl

/-- Witness for the amended C6: one declared bit over the table
`{7 ↦ "00", 8 ↦ "01", 9 ↦ "1"}` ends mid-codeword, and the decoder
silently returns the empty sample list. -/
theorem c6_no_boundary_detection_witness :
    decodeAudioData [false]
      (buildDecTree [((7 : Int), [false, false]), ((8 : Int), [false, true]),
        ((9 : Int), [true])]) = some [] :=
  c6_no_boundary_detection _ [false] []
    (.node (-1) (.node 7 .nil .nil) (.node 8 .nil .nil)) (by decide) (by decide)

/-- Counterexample to C6 as stated: over the table
`{7 ↦ "00", 8 ↦ "01", 9 ↦ "1"}` with declared bit count 1 the walk
ends away from the root, yet `decodeAudioData` returns a sample
sequence (`[]`) with no failure of any kind. -/
theorem c6_cex_silent_return :
    decodeWalk
        (buildDecTree [((7 : Int), [false, false]), ((8 : Int), [false, true]),
          ((9 : Int), [true])]) [false]
        (buildDecTree [((7 : Int), [false, false]), ((8 : Int), [false, true]),
          ((9 : Int), [true])])
      = some ([], .node (-1) (.node 7 .nil .nil) (.node 8 .nil .nil)) ∧
    DNode.node (-1) (.node 7 .nil .nil) (.node 8 .nil .nil)
      ≠ buildDecTree [((7 : Int), [false, false]), ((8 : Int), [false, true]),
          ((9 : Int), [true])] ∧
    decodeAudioData [false]
        (buildDecTree [((7 : Int), [false, false]), ((8 : Int), [false, true]),
          ((9 : Int), [true])]) = some [] := by
  refine ⟨by decide, by decide, by decide⟩

/-! ## C7: bit packing and unpacking -/

/-- Bit `j` of the packed byte is the `j`-th accumulated bit. -/
theorem toByte_testBit (bs : List Bool) : ∀ j, (toByte bs).testBit j = bs.getD j false := by
  induction bs with
  | nil => intro j; simp [toByte, Nat.zero_testBit, List.getD]
  | cons b bs ih =>
    intro j
    have hval : toByte (b :: bs) = (if b then 1 else 0) + 2 * toByte bs := rfl
    cases j with
    | zero =>
      rw [hval, Nat.testBit_zero]
      cases b <;> simp
    | succ j =>
      rw [hval, Nat.testBit_succ]
      have hdiv : ((if b then 1 else 0) + 2 * toByte bs) / 2 = toByte bs := by
        cases b <;> simp <;> omega
      rw [hdiv, ih]
      rfl

theorem byteToBits_length (c : Nat) : (byteToBits c).length = 8 := by
  simp [byteToBits]

/-- Unpacking the byte packed from at most eight bits recovers those
bits followed by `false` padding. -/
theorem byteToBits_toByte (bs : List Bool) (h : bs.length ≤ 8) :
    byteToBits (toByte bs) = bs ++ List.replicate (8 - bs.length) false := by
  apply List.ext_getElem
  · simp [byteToBits]; omega
  · intro n h1 h2
    simp only [byteToBits] at h1
    simp only [byteToBits, List.getElem_map, List.getElem_range, toByte_testBit]
    by_cases hn : n < bs.length
    · rw [List.getElem_append_left hn, List.getD_eq_getElem bs false hn]
    · rw [List.getElem_append_right (le_of_not_lt hn), List.getElem_replicate,
        List.getD_eq_default _ _ (le_of_not_lt hn)]

theorem unpackBits_cons (B : Nat) (bytes : List Nat) (n : Nat) :
    unpackBits (B :: bytes) n = (byteToBits B).take n ++ unpackBits bytes (n - 8) := by
  unfold unpackBits
  simp only [List.map_cons, List.flatten_cons]
  rw [List.take_append_eq_append_take, byteToBits_length]

/-- The packing loop round-trips: with fewer than eight pending bits,
packing the remaining bits and unpacking the total count recovers the
pending and remaining bits. -/
theorem unpack_packLoop : ∀ (bits acc : List Bool), acc.length < 8 →
    unpackBits (packLoop acc bits) (acc.length + bits.length) = acc ++ bits := by
  intro bits
  induction bits with
  | nil =>
    intro acc h
    by_cases ha : acc = []
    · subst ha; rfl
    · show unpackBits (if acc = [] then [] else [toByte acc]) _ = _
      rw [if_neg ha, unpackBits_cons, byteToBits_toByte acc (by omega)]
      show (acc ++ List.replicate (8 - acc.length) false).take (acc.length + 0) ++
          unpackBits [] (acc.length + 0 - 8) = acc ++ []
      have h0 : unpackBits [] (acc.length + 0 - 8) = [] := by
        simp [unpackBits]
      rw [h0, Nat.add_zero, List.take_append_eq_append_take, List.take_of_length_le (le_refl _),
        Nat.sub_self, List.take_zero, List.append_nil, List.append_nil]
  | cons b bs ih =>
    intro acc h
    show unpackBits (if acc.length = 7 then toByte (acc ++ [b]) :: packLoop [] bs
        else packLoop (acc ++ [b]) bs) _ = _
    by_cases h7 : acc.length = 7
    · rw [if_pos h7, unpackBits_cons, byteToBits_toByte (acc ++ [b]) (by simp [h7])]
      have hl8 : (acc ++ [b]).length = 8 := by simp [h7]
      rw [hl8, Nat.sub_self, List.replicate_zero, List.append_nil]
      have hn : acc.length + (b :: bs).length = 8 + bs.length := by
        simp only [List.length_cons, h7]; omega
      rw [hn, Nat.add_sub_cancel_left]
      have htake : (acc ++ [b]).take (8 + bs.length) = acc ++ [b] :=
        List.take_of_length_le (by omega)
      have h0 := ih [] (by simp)
      simp only [List.length_nil, Nat.zero_add, List.nil_append] at h0
      rw [htake, h0, List.append_assoc]
      rfl
    · rw [if_neg h7]
      have h8 : (acc ++ [b]).length < 8 := by simp; omega
      have hn : acc.length + (b :: bs).length = (acc ++ [b]).length + bs.length := by
        simp; omega
      rw [hn, ih (acc ++ [b]) h8, List.append_assoc]
      rfl

/-- C7 round trip: unpacking the packed bytes with the exact bit count
returns the original bit string. -/
theorem unpack_pack (bits : List Bool) : unpackBits (packBits bits) bits.length = bits := by
  have h := unpack_packLoop bits [] (by simp)
  simpa [packBits] using h

theorem length_flatten_bytes (bytes : List Nat) :
    ((bytes.map byteToBits).flatten).length = 8 * bytes.length := by
  induction bytes with
  | nil => rfl
  | cons B rest ih =>
    simp only [List.map_cons, List.flatten_cons, List.length_append, byteToBits_length, ih,
      List.length_cons]
    ring

/-- Logical bit `i` of the unpacked stream is bit `i % 8` of byte
`i / 8`. -/
theorem flatten_getD (bytes : List Nat) : ∀ i, i < 8 * bytes.length →
    ((bytes.map byteToBits).flatten).getD i false
      = Nat.testBit (bytes.getD (i / 8) 0) (i % 8) := by
  induction bytes with
  | nil => intro i h; simp at h
  | cons B rest ih =>
    intro i h
    simp only [List.map_cons, List.flatten_cons]
    by_cases h8 : i < 8
    · rw [List.getD_append _ _ _ _ (by rw [byteToBits_length]; exact h8)]
      have hb : (byteToBits B).getD i false = B.testBit i := by
        rw [List.getD_eq_getElem _ _ (by rw [byteToBits_length]; exact h8)]
        simp [byteToBits]
      rw [hb]
      have h0 : i / 8 = 0 := by omega
      have h1 : i % 8 = i := by omega
      rw [h0, h1]
      rfl
    · rw [List.getD_append_right _ _ _ _ (by rw [byteToBits_length]; omega), byteToBits_length]
      have hlt : i - 8 < 8 * rest.length := by
        simp only [List.length_cons] at h; omega
      rw [ih (i - 8) hlt]
      have e1 : (i - 8) / 8 = i / 8 - 1 := by omega
      have e2 : (i - 8) % 8 = i % 8 := by omega
      have e3 : (B :: rest).getD (i / 8) 0 = rest.getD (i / 8 - 1) 0 := by
        have hsucc : i / 8 = (i / 8 - 1) + 1 := by omega
        rw [hsucc]
        rfl
      rw [e1, e2, e3]

theorem length_unpackBits (bytes : List Nat) (n : Nat) (h : n ≤ 8 * bytes.length) :
    (unpackBits bytes n).length = n := by
  unfold unpackBits
  rw [List.length_take, length_flatten_bytes]
  omega

theorem unpackBits_getD (bytes : List Nat) (n i : Nat) (hi : i < n)
    (h : n ≤ 8 * bytes.length) :
    (unpackBits bytes n).getD i false = Nat.testBit (bytes.getD (i / 8) 0) (i % 8) := by
  unfold unpackBits
  rw [List.getD_eq_getElem?_getD, List.getElem?_take, if_pos hi, ← List.getD_eq_getElem?_getD,
    flatten_getD bytes i (by omega)]

/-- The declared bit count never exceeds the capacity of the packed
bytes. -/
theorem length_le_pack (bits : List Bool) : bits.length ≤ 8 * (packBits bits).length := by
  have h := congrArg List.length (unpack_pack bits)
  rw [unpackBits, List.length_take, length_flatten_bytes] at h
  omega

theorem pack_places_bits (bits : List Bool) : ∀ i, i < bits.length →
    Nat.testBit ((packBits bits).getD (i / 8) 0) (i % 8) = bits.getD i false := by
  intro i hi
  conv_rhs => rw [← unpack_pack bits]
  rw [unpackBits_getD _ _ _ hi (length_le_pack bits)]

/-- Unpacking depends only on the first `n` logical bits, never on the
final byte's padding. -/
theorem unpack_agrees (bits : List Bool) (bytes : List Nat)
    (hlen : bits.length ≤ 8 * bytes.length)
    (hbit : ∀ i, i < bits.length →
      Nat.testBit (bytes.getD (i / 8) 0) (i % 8) = bits.getD i false) :
    unpackBits bytes bits.length = bits := by
  apply List.ext_getElem
  · rw [length_unpackBits _ _ hlen]
  · intro n h1 h2
    rw [← List.getD_eq_getElem _ false h1, ← List.getD_eq_getElem _ false h2,
      unpackBits_getD _ _ _ h2 hlen, hbit n h2]

/-- C7: the encoder packs logical bit `i` at bit index `i % 8` of byte
`i / 8`; unpacking the packed bytes with the same total bit count
returns exactly the original bit string; and unpacking any byte stream
agreeing on the first `N` logical bits gives the same result, so the
final byte's padding bits beyond bit `N-1` are never consulted. -/
theorem c7_bit_packing (bits : List Bool) :
    (∀ i, i < bits.length →
        Nat.testBit ((packBits bits).getD (i / 8) 0) (i % 8) = bits.getD i false) ∧
      unpackBits (packBits bits) bits.length = bits ∧
      ∀ bytes : List Nat, bits.length ≤ 8 * bytes.length →
        (∀ i, i < bits.length →
          Nat.testBit (bytes.getD (i / 8) 0) (i % 8) = bits.getD i false) →
        unpackBits bytes bits.length = bits :=
  ⟨pack_places_bits bits, unpack_pack bits,
    fun bytes h1 h2 => unpack_agrees bits bytes h1 h2⟩

/-- Witness for C7 at the bit string `101` (and, for the padding part,
the byte stream `[5, 255]` whose padding bits differ from the packed
stream `[5]`). -/
theorem c7_bit_packing_witness :
    (Nat.testBit ((packBits [true, false, true]).getD (0 / 8) 0) (0 % 8)
        = [true, false, true].getD 0 false) ∧
      unpackBits (packBits [true, false, true]) 3 = [true, false, true] ∧
      unpackBits [5, 255] 3 = [true, false, true] :=
  ⟨(c7_bit_packing [true, false, true]).1 0 (by decide),
    (c7_bit_packing [true, false, true]).2.1,
    (c7_bit_packing [true, false, true]).2.2 [5, 255] (by decide) (by decide)⟩

/-! ## C8: decoding concatenations of codewords from a prefix-free table -/

theorem leads_refl : ∀ p : List Bool, leads p p = true := by
  intro p
  induction p with
  | nil => rfl
  | cons a as ih => simp [leads, ih]

theorem leads_length : ∀ p q : List Bool, leads p q = true → p.length ≤ q.length := by
  intro p
  induction p with
  | nil => intro q _; simp
  | cons a as ih =>
    intro q h
    cases q with
    | nil => simp [leads] at h
    | cons b bs =>
      simp only [leads, Bool.and_eq_true] at h
      have := ih bs h.2
      simp only [List.length_cons]
      omega

theorem leads_append_one : ∀ (p : List Bool) (b : Bool) (q : List Bool),
    leads (p ++ [b]) q = true → leads p q = true := by
  intro p
  induction p with
  | nil => intro b q _; rfl
  | cons a as ih =>
    intro b q h
    cases q with
    | nil => simp [leads] at h
    | cons c cs =>
      simp only [List.cons_append, leads, Bool.and_eq_true] at h ⊢
      exact ⟨h.1, ih b cs h.2⟩

theorem followN_nil : ∀ p : List Bool, followN .nil p = .nil := by
  intro p; cases p <;> rfl

theorem followN_zero (t : DNode) : followN t [] = t := by
  cases t <;> rfl

theorem followN_append : ∀ (p q : List Bool) (t : DNode),
    followN t (p ++ q) = followN (followN t p) q := by
  intro p
  induction p with
  | nil => intro q t; rw [List.nil_append, followN_zero]
  | cons b bs ih =>
    intro q t
    cases t with
    | nil =>
      simp only [List.cons_append]
      rw [followN_nil, followN_nil, followN_nil]
    | node s l r =>
      simp only [List.cons_append, followN]
      exact ih q _

/-- Inserting a code that neither extends nor is extended by `p` leaves
the walk along `p` unchanged. -/
theorem insertD_followN_other : ∀ (c p : List Bool) (t : DNode) (v : Int),
    leads p c = false → leads c p = false →
    followN (insertD t c v) p = followN t p := by
  intro c
  induction c with
  | nil => intro p t v _ h2; simp [leads] at h2
  | cons b bs ih =>
    intro p t v h1 h2
    cases p with
    | nil => simp [leads] at h1
    | cons a ps =>
      by_cases hab : a = b
      · subst hab
        simp only [leads, beq_self_eq_true, Bool.true_and] at h1 h2
        cases t with
        | nil =>
          cases a
          all_goals
            simp only [insertD, followN, if_true, if_false, Bool.false_eq_true]
          all_goals
            rw [ih ps .nil v h1 h2, followN_nil]
        | node s l r =>
          cases a <;>
            simp only [insertD, followN, if_true, if_false, Bool.false_eq_true] <;>
            exact ih ps _ v h1 h2
      · cases t with
        | nil =>
          cases a <;> cases b <;>
            first
              | exact absurd rfl hab
              | simp [insertD, followN, followN_nil]
        | node s l r =>
          cases a <;> cases b <;>
            first
              | exact absurd rfl hab
              | simp [insertD, followN]

/-- Inserting a code whose path does not yet exist creates a childless
node carrying the inserted sample at the end of that path. -/
theorem insertD_followN_self_nil : ∀ (c : List Bool) (t : DNode) (v : Int),
    followN t c = .nil → followN (insertD t c v) c = .node v .nil .nil := by
  intro c
  induction c with
  | nil =>
    intro t v h
    rw [followN_zero] at h
    subst h
    rfl
  | cons b bs ih =>
    intro t v h
    cases t with
    | nil =>
      cases b
      all_goals
        simp only [insertD, followN, if_true, if_false, Bool.false_eq_true]
      all_goals
        exact ih .nil v (followN_nil bs)
    | node s l r =>
      cases b
      all_goals
        simp only [followN, if_true, if_false, Bool.false_eq_true] at h
      all_goals
        simp only [insertD, followN, if_true, if_false, Bool.false_eq_true]
      all_goals
        exact ih _ v h

/-- Inserting a code whose end node already exists replaces that node's
sample and keeps its children. -/
theorem insertD_followN_self_node : ∀ (c : List Bool) (t : DNode) (v x : Int) (l r : DNode),
    followN t c = .node x l r → followN (insertD t c v) c = .node v l r := by
  intro c
  induction c with
  | nil =>
    intro t v x l r h
    rw [followN_zero] at h
    subst h
    rfl
  | cons b bs ih =>
    intro t v x l r h
    cases t with
    | nil =>
      rw [followN_nil] at h
      exact absurd h (by simp)
    | node s tl tr =>
      cases b
      all_goals
        simp only [followN, if_true, if_false, Bool.false_eq_true] at h
      all_goals
        simp only [insertD, followN, if_true, if_false, Bool.false_eq_true]
      all_goals
        exact ih _ v x l r h

/-- Any path reachable after an insertion was reachable before or is an
initial segment of the inserted code. -/
theorem insertD_reach : ∀ (p c : List Bool) (t : DNode) (v : Int),
    followN (insertD t c v) p ≠ .nil → followN t p ≠ .nil ∨ leads p c = true := by
  intro p
  induction p with
  | nil => intro c t v _; exact Or.inr rfl
  | cons a ps ih =>
    intro c t v h
    cases c with
    | nil =>
      cases t with
      | nil =>
        exfalso
        apply h
        cases a <;> simp [insertD, followN, followN_nil]
      | node s l r =>
        left
        intro hc
        apply h
        cases a
        all_goals
          simp only [insertD, followN, if_true, if_false, Bool.false_eq_true] at hc ⊢
        all_goals
          exact hc
    | cons b bs =>
      by_cases hab : a = b
      · subst hab
        cases t with
        | nil =>
          have h' : followN (insertD .nil bs v) ps ≠ .nil := by
            intro hc
            apply h
            cases a
            all_goals
              simp only [insertD, followN, if_true, if_false, Bool.false_eq_true]
            all_goals
              exact hc
          rcases ih bs .nil v h' with h2 | h2
          · exact absurd (followN_nil ps) h2
          · right
            simp [leads, h2]
        | node s l r =>
          have h' : followN (insertD (if a then r else l) bs v) ps ≠ .nil := by
            intro hc
            apply h
            cases a
            all_goals
              simp only [insertD, followN, if_true, if_false, Bool.false_eq_true] at hc ⊢
            all_goals
              exact hc
          rcases ih bs _ v h' with h2 | h2
          · left
            intro hc
            apply h2
            cases a
            all_goals
              simp only [followN, if_true, if_false, Bool.false_eq_true] at hc
            all_goals
              simpa using hc
          · right
            simp [leads, h2]
      · left
        intro hc
        apply h
        cases a <;> cases b
        all_goals
          first
            | exact absurd rfl hab
            | (cases t with
                | nil => rw [followN_nil] at hc; simp [insertD, followN, followN_nil]
                | node s l r =>
                    simp only [insertD, followN, if_true, if_false, Bool.false_eq_true] at hc ⊢
                    exact hc)

/-- Inserting a code incomparable with every previously inserted code
preserves the table invariant and adds the new entry as a childless
node at the end of its path. -/
theorem goodTable_insertD (done : List (Int × List Bool)) (t : DNode) (v : Int)
    (c : List Bool) (hg : GoodTable done t) (hinc : ∀ e ∈ done, Incomp e.2 c) :
    GoodTable (done ++ [(v, c)]) (insertD t c v) := by
  obtain ⟨hA, hB⟩ := hg
  constructor
  · intro e he
    rcases List.mem_append.mp he with he | he
    · have hi := hinc e he
      rw [insertD_followN_other c e.2 t v hi.1 hi.2]
      exact hA e he
    · simp only [List.mem_singleton] at he
      subst he
      cases hf : followN t c with
      | nil => exact insertD_followN_self_nil c t v hf
      | node x l r =>
        have hl : l = .nil := by
          by_contra hl
          have hstep : followN t (c ++ [false]) = l := by
            rw [followN_append, hf]
            simp [followN, followN_zero]
          rcases hB (c ++ [false]) (by simp) (by rw [hstep]; exact hl) with ⟨e, he, hle⟩
          have := leads_append_one c false e.2 hle
          rw [(hinc e he).2] at this
          cases this
        have hr : r = .nil := by
          by_contra hr
          have hstep : followN t (c ++ [true]) = r := by
            rw [followN_append, hf]
            simp [followN, followN_zero]
          rcases hB (c ++ [true]) (by simp) (by rw [hstep]; exact hr) with ⟨e, he, hle⟩
          have := leads_append_one c true e.2 hle
          rw [(hinc e he).2] at this
          cases this
        subst hl
        subst hr
        exact insertD_followN_self_node c t v x .nil .nil hf
  · intro p hp hreach
    rcases insertD_reach p c t v hreach with h | h
    · rcases hB p hp h with ⟨e, he, hle⟩
      exact ⟨e, List.mem_append.mpr (Or.inl he), hle⟩
    · exact ⟨(v, c), List.mem_append.mpr (Or.inr (by simp)), h⟩

/-- Folding the insertions of a pairwise-incomparable batch of entries
over a tree satisfying the invariant yields the invariant for the
combined table. -/
theorem goodTable_foldl : ∀ (todo done : List (Int × List Bool)) (t : DNode),
    GoodTable done t →
    (∀ e ∈ done, ∀ f ∈ todo, Incomp e.2 f.2) →
    List.Pairwise (fun e f => Incomp e.2 f.2) todo →
    GoodTable (done ++ todo) (todo.foldl (fun t e => insertD t e.2 e.1) t) := by
  intro todo
  induction todo with
  | nil => intro done t hg _ _; simpa using hg
  | cons f rest ih =>
    intro done t hg hcross hpw
    have hpw' := List.pairwise_cons.mp hpw
    have hgi : GoodTable (done ++ [f]) (insertD t f.2 f.1) :=
      goodTable_insertD done t f.1 f.2 hg (fun e he => hcross e he f (by simp))
    have step := ih (done ++ [f]) (insertD t f.2 f.1) hgi
      (fun e he g hgr => by
        rcases List.mem_append.mp he with he | he
        · exact hcross e he g (List.mem_cons_of_mem f hgr)
        · simp only [List.mem_singleton] at he
          subst he
          exact hpw'.1 g hgr)
      hpw'.2
    rw [List.append_assoc] at step
    simpa using step

/-- The tree the decoder rebuilds from a prefix-free code table: every
entry's code leads to a childless node carrying the entry's sample. -/
theorem buildDecTree_good (ct : List (Int × List Bool)) (hpf : PrefFree ct) :
    GoodTable ct (buildDecTree ct) := by
  have h0 : GoodTable [] (.node (-1) .nil .nil) := by
    constructor
    · intro e he
      cases he
    · intro p hp hr
      exfalso
      apply hr
      cases p with
      | nil => exact absurd rfl hp
      | cons b bs =>
        show followN (if b then DNode.nil else DNode.nil) bs = .nil
        cases b <;> exact followN_nil bs
  have h := goodTable_foldl ct [] (.node (-1) .nil .nil) h0 (fun e he => by cases he) hpf
  simpa [buildDecTree] using h

/-- One step of the decode walk when the child on the current bit is a
known node. -/
theorem decodeWalk_cons (root : DNode) (b : Bool) (bs : List Bool) (x cs : Int)
    (l r cl cr : DNode) (hchild : (if b then r else l) = .node cs cl cr) :
    decodeWalk root (b :: bs) (.node x l r)
      = if cl = DNode.nil ∧ cr = DNode.nil then
          (decodeWalk root bs root).map (fun pr => (cs :: pr.1, pr.2))
        else decodeWalk root bs (.node cs cl cr) := by
  cases b
  · simp only [Bool.false_eq_true, if_false] at hchild
    subst hchild
    rfl
  · simp only [if_true] at hchild
    subst hchild
    rfl

/-- Walking one complete codeword from the current node: every child on
the path exists, intermediate nodes are not childless, and the final
childless node emits its sample and resets the walk to the root. -/
theorem walk_code (root : DNode) : ∀ (c : List Bool) (cur : DNode) (s : Int)
    (rest : List Bool),
    followN cur c = .node s .nil .nil → c ≠ [] →
    decodeWalk root (c ++ rest) cur
      = (decodeWalk root rest root).map (fun pr => (s :: pr.1, pr.2)) := by
  intro c
  induction c with
  | nil => intro cur s rest _ hne; exact absurd rfl hne
  | cons b bs ih =>
    intro cur s rest h hne
    cases cur with
    | nil =>
      rw [followN_nil] at h
      exact absurd h (by simp)
    | node x l r =>
      simp only [followN] at h
      cases bs with
      | nil =>
        rw [followN_zero] at h
        simp only [List.cons_append, List.nil_append, decodeWalk]
        rw [h]
        simp
      | cons b2 bs2 =>
        have hchild_ne : (if b then r else l) ≠ .nil := by
          intro hc
          rw [hc, followN_nil] at h
          exact absurd h (by simp)
        cases hchild : (if b then r else l) with
        | nil => exact absurd hchild hchild_ne
        | node cs cl cr =>
          rw [hchild] at h
          have hnotleaf : ¬ (cl = DNode.nil ∧ cr = DNode.nil) := by
            rintro ⟨hcl, hcr⟩
            subst hcl
            subst hcr
            simp only [followN] at h
            have hn : followN (if b2 then DNode.nil else DNode.nil) bs2 = .nil := by
              cases b2 <;> exact followN_nil bs2
            rw [hn] at h
            exact absurd h (by simp)
          simp only [List.cons_append]
          rw [decodeWalk_cons root b (b2 :: (bs2 ++ rest)) x cs l r cl cr hchild,
            if_neg hnotleaf]
          have hih := ih (DNode.node cs cl cr) s rest h (by simp)
          simpa using hih

/-- C8 (amended): for every prefix-free code table all of whose codes
are non-empty, the decoder's walk over the rebuilt tree, applied to any
concatenation of codewords of the table, finds the required child at
every step, emits exactly the corresponding samples, and is back at the
root after the last bit. -/
theorem c8_decode_concat (ct items : List (Int × List Bool))
    (hpf : PrefFree ct) (hcne : ∀ e ∈ ct, e.2 ≠ [])
    (hit : ∀ e ∈ items, e ∈ ct) :
    decodeWalk (buildDecTree ct) ((items.map Prod.snd).flatten) (buildDecTree ct)
      = some (items.map Prod.fst, buildDecTree ct) := by
  have hgood := buildDecTree_good ct hpf
  revert hit
  induction items with
  | nil => intro _; rfl
  | cons e rest ih =>
    intro hit
    have he := hit e (by simp)
    simp only [List.map_cons, List.flatten_cons]
    rw [walk_code (buildDecTree ct) e.2 (buildDecTree ct) e.1 _ (hgood.1 e he) (hcne e he)]
    rw [ih (fun f hf => hit f (List.mem_cons_of_mem e hf))]
    rfl

/-- Witness for the amended C8: the table `{7 ↦ "00", 8 ↦ "01", 9 ↦ "1"}`
and the codeword sequence for the samples `[8, 9, 7]`. -/
theorem c8_decode_concat_witness :
    decodeWalk
        (buildDecTree [((7 : Int), [false, false]), ((8 : Int), [false, true]),
          ((9 : Int), [true])])
        (([((8 : Int), [false, true]), ((9 : Int), [true]),
            ((7 : Int), [false, false])].map Prod.snd).flatten)
        (buildDecTree [((7 : Int), [false, false]), ((8 : Int), [false, true]),
          ((9 : Int), [true])])
      = some ([((8 : Int), [false, true]), ((9 : Int), [true]),
            ((7 : Int), [false, false])].map Prod.fst,
          buildDecTree [((7 : Int), [false, false]), ((8 : Int), [false, true]),
            ((9 : Int), [true])]) :=
  c8_decode_concat _ _ (by decide) (by decide) (by decide)

/-- Counterexample to C8 as stated: the table `{5 ↦ ""}` is prefix-free
(there is no other entry), the empty bit string is the concatenation of
the codewords for the sample sequence `[5]`, yet the decoder emits `[]`
rather than the corresponding sequence `[5]`. -/
theorem c8_cex_empty_code :
    PrefFree [((5 : Int), ([] : List Bool))] ∧
      buildDecTree [((5 : Int), ([] : List Bool))] = .node 5 .nil .nil ∧
      decodeAudioData (([((5 : Int), ([] : List Bool))].map Prod.snd).flatten)
          (buildDecTree [((5 : Int), ([] : List Bool))]) = some [] ∧
      ([] : List Int) ≠ [((5 : Int), ([] : List Bool))].map Prod.fst := by
  refine ⟨by decide, by decide, by decide, by decide⟩
